import Mathlib

/-!
# Verification of the `typestep` pipeline compiler

A shallow embedding of `typestep.go`: the morphism algebra payloads
(`lambda`, `source`, `eventbus`), the compiler state (`typeStep`), the
visitor callbacks (`OnEnterFrom`, `OnEnterMap`, `OnLeaveMap`, `OnEnterSeq`,
`OnLeaveSeq`, `OnEnterYield`, `OnLeaveMorphism`) and the depth-first
traversal that drives them.  AWS CDK constructs are modelled as pure data:
a step-function chain is a `List State`, catch branches are explicit, and
the emitted artifact records the chain, the trigger rule's event bus and
its event pattern.
-/

/-! ## SHA-256 (32-bit words as `Nat` reduced mod 2^32)

`OnLeaveSeq` derives the name of every fan-out sub-graph from
`sha256.Sum256([]byte(name))`, hex encoded, truncated to 8 characters.
We implement SHA-256 over byte lists, keeping 32-bit words as `Nat`
values reduced modulo `2^32`.
-/

/-- Truncate to a 32-bit word. -/
def w32 (n : Nat) : Nat := n % 4294967296

/-- Truncate to a byte. -/
def w8 (n : Nat) : Nat := n % 256

/-- Right rotation of a 32-bit word. -/
def rotr32 (x n : Nat) : Nat := w32 ((x >>> n) ||| (x <<< (32 - n)))

/-- SHA-256 Σ₀. -/
def bsig0 (x : Nat) : Nat := (rotr32 x 2) ^^^ (rotr32 x 13) ^^^ (rotr32 x 22)

/-- SHA-256 Σ₁. -/
def bsig1 (x : Nat) : Nat := (rotr32 x 6) ^^^ (rotr32 x 11) ^^^ (rotr32 x 25)

/-- SHA-256 σ₀. -/
def ssig0 (x : Nat) : Nat := (rotr32 x 7) ^^^ (rotr32 x 18) ^^^ (x >>> 3)

/-- SHA-256 σ₁. -/
def ssig1 (x : Nat) : Nat := (rotr32 x 17) ^^^ (rotr32 x 19) ^^^ (x >>> 10)

/-- SHA-256 Ch: `(x ∧ y) ⊕ (¬x ∧ z)` on 32-bit words. -/
def chF (x y z : Nat) : Nat := (x &&& y) ^^^ ((x ^^^ 4294967295) &&& z)

/-- SHA-256 Maj. -/
def majF (x y z : Nat) : Nat := (x &&& y) ^^^ (x &&& z) ^^^ (y &&& z)

/-- The 64 SHA-256 round constants. -/
def shaK : List Nat :=
  [1116352408, 1899447441, 3049323471, 3921009573, 961987163, 1508970993,
   2453635748, 2870763221, 3624381080, 310598401, 607225278, 1426881987,
   1925078388, 2162078206, 2614888103, 3248222580, 3835390401, 4022224774,
   264347078, 604807628, 770255983, 1249150122, 1555081692, 1996064986,
   2554220882, 2821834349, 2952996808, 3210313671, 3336571891, 3584528711,
   113926993, 338241895, 666307205, 773529912, 1294757372, 1396182291,
   1695183700, 1986661051, 2177026350, 2456956037, 2730485921, 2820302411,
   3259730800, 3345764771, 3516065817, 3600352804, 4094571909, 275423344,
   430227734, 506948616, 659060556, 883997877, 958139571, 1322822218,
   1537002063, 1747873779, 1955562222, 2024104815, 2227730452, 2361852424,
   2428436474, 2756734187, 3204031479, 3329325298]

/-- Working state of the compression function: eight 32-bit words. -/
structure Hash8 where
  a : Nat
  b : Nat
  c : Nat
  d : Nat
  e : Nat
  f : Nat
  g : Nat
  h : Nat
deriving Repr, DecidableEq

/-- SHA-256 initial hash value. -/
def shaH0 : Hash8 :=
  ⟨1779033703, 3144134277, 1013904242, 2773480762, 1359893119, 2600822924, 528734635, 1541459225⟩

/-- One compression round with round constant `k` and schedule word `w`. -/
def shaRound (st : Hash8) (k w : Nat) : Hash8 :=
  let t1 := w32 (st.h + bsig1 st.e + chF st.e st.f st.g + k + w)
  let t2 := w32 (bsig0 st.a + majF st.a st.b st.c)
  ⟨w32 (t1 + t2), st.a, st.b, st.c, w32 (st.d + t1), st.e, st.f, st.g⟩

/-- SHA-256 padding: append `0x80`, zeros, then the 64-bit big-endian bit length. -/
def padBytes (msg : List Nat) : List Nat :=
  let ml := 8 * msg.length
  let r := (msg.length + 1) % 64
  let zeros := (120 - r) % 64
  msg ++ [0x80] ++ List.replicate zeros 0 ++
    [w8 (ml >>> 56), w8 (ml >>> 48), w8 (ml >>> 40), w8 (ml >>> 32),
     w8 (ml >>> 24), w8 (ml >>> 16), w8 (ml >>> 8), w8 ml]

/-- Group bytes into 32-bit big-endian words. -/
def toWords : List Nat → List Nat
  | a :: b :: c :: d :: rest => (((a * 256 + b) * 256 + c) * 256 + d) :: toWords rest
  | _ => []

/-- Split a word list into blocks of 16 words (the input is always a
multiple of 16 words long; a ragged tail would become a short final block). -/
def chunk16 : List Nat → List (List Nat)
  | x0 :: x1 :: x2 :: x3 :: x4 :: x5 :: x6 :: x7 ::
    x8 :: x9 :: x10 :: x11 :: x12 :: x13 :: x14 :: x15 :: rest =>
      [x0, x1, x2, x3, x4, x5, x6, x7, x8, x9, x10, x11, x12, x13, x14, x15] :: chunk16 rest
  | [] => []
  | l => [l]

/-- Extend a 16-word block to the 64-word message schedule. -/
def schedule (block : List Nat) : List Nat :=
  (List.range 64).foldl
    (fun w i =>
      if i < 16 then w ++ [block.getD i 0]
      else w ++ [w32 (ssig1 (w.getD (i - 2) 0) + w.getD (i - 7) 0 +
                      ssig0 (w.getD (i - 15) 0) + w.getD (i - 16) 0)])
    []

/-- Compress one 16-word block into the running hash. -/
def shaCompress (h0 : Hash8) (block : List Nat) : Hash8 :=
  let ws := schedule block
  let st := (shaK.zip ws).foldl (fun st kw => shaRound st kw.1 kw.2) h0
  ⟨w32 (h0.a + st.a), w32 (h0.b + st.b), w32 (h0.c + st.c), w32 (h0.d + st.d),
   w32 (h0.e + st.e), w32 (h0.f + st.f), w32 (h0.g + st.g), w32 (h0.h + st.h)⟩

/-- Big-endian bytes of a 32-bit word. -/
def be32 (n : Nat) : List Nat := [w8 (n >>> 24), w8 (n >>> 16), w8 (n >>> 8), w8 n]

/-- SHA-256 digest (32 bytes) of a byte list. -/
def sha256Bytes (msg : List Nat) : List Nat :=
  let h := (chunk16 (toWords (padBytes msg))).foldl shaCompress shaH0
  be32 h.a ++ be32 h.b ++ be32 h.c ++ be32 h.d ++ be32 h.e ++ be32 h.f ++ be32 h.g ++ be32 h.h

/-- Lower-case hex digit. -/
def hexDigit (n : Nat) : Char := if n < 10 then Char.ofNat (48 + n) else Char.ofNat (87 + n)

/-- Lower-case hex encoding of a byte list, as in Go's `hex.EncodeToString`. -/
def bytesToHex (bs : List Nat) : String :=
  String.mk ((bs.map (fun b => [hexDigit (b / 16), hexDigit (b % 16)])).flatten)

/-- UTF-8 bytes of a single code point. -/
def utf8Bytes (c : Nat) : List Nat :=
  if c < 0x80 then [c]
  else if c < 0x800 then [0xC0 ||| (c >>> 6), 0x80 ||| (c &&& 0x3F)]
  else if c < 0x10000 then
    [0xE0 ||| (c >>> 12), 0x80 ||| ((c >>> 6) &&& 0x3F), 0x80 ||| (c &&& 0x3F)]
  else
    [0xF0 ||| (c >>> 18), 0x80 ||| ((c >>> 12) &&& 0x3F),
     0x80 ||| ((c >>> 6) &&& 0x3F), 0x80 ||| (c &&& 0x3F)]

/-- UTF-8 encoding of a string, Go's `[]byte(s)`. -/
def strBytes (s : String) : List Nat := (s.data.map (fun c => utf8Bytes c.toNat)).flatten

/-- Hex-encoded SHA-256 digest of a string's UTF-8 bytes:
`hex.EncodeToString(sha256.Sum256([]byte(s))[:])`. -/
def sha256Hex (s : String) : String :=
  bytesToHex (sha256Bytes (strBytes s))

/-! ## Morphism-algebra payloads (`typestep.go` lines 35–125)

External AWS handles are modelled by their stable identity: a CDK construct
is identified by its construct id (`*x.Node().Id()`), a queue / event bus by
an identifier string.
-/

/-- Go struct `lambda` (typestep.go:63): a function binding — the bound AWS Lambda
function is represented by its construct id. -/
structure lambda where
  concurency : Int
  f : String
deriving Repr, DecidableEq

/-- Go struct `source` (typestep.go:49): the `From` payload — category tags plus the
event bus the pipeline reads from. -/
structure source where
  cat : List String
  bus : String
deriving Repr, DecidableEq

/-- Go struct `eventbus` (typestep.go:121): the `ToEventBus` yield payload. -/
structure eventbus where
  bus : String
  src : String
  cat : List String
deriving Repr, DecidableEq

/-- Payload of a `Map` AST node (`duct.AstMap.F`).  The compiler switches on
the concrete type: `lambda` is the recognized kind; any other payload is
`other`, carrying the name Go's `%T` formats for it. -/
inductive FnPayload where
  | lam (f : lambda)
  | other (tyName : String)
deriving Repr, DecidableEq

/-- Payload of a `From` AST node (`duct.AstFrom.Source`). -/
inductive SourcePayload where
  | src (s : source)
  | other (tyName : String)
deriving Repr, DecidableEq

/-- Payload of a `Yield` AST node (`duct.AstYield.Target`): an SQS queue,
an `eventbus` value, or an unrecognized payload. -/
inductive TargetPayload where
  | queue (q : String)
  | ebus (e : eventbus)
  | other (tyName : String)
deriving Repr, DecidableEq

/-- Modelled from the spec: the `duct` morphism AST (the `duct` package is an
external dependency of this repository).  Four node kinds — `From` (root,
source payload and the payload type name `duct.AstFrom.Type`), `Map`
(function binding), `Seq` (fan-out sub-chain), `Yield` (sink payload and
output type name).  Spec §3: "Represented as a tree/AST with four node
kinds"; the traversal presents a pipeline as the flat list of nodes of one
nesting level, `Seq` carrying its nested level. -/
inductive Ast where
  | fromN (Source : SourcePayload) (Ty : String)
  | mapN (F : FnPayload)
  | seqN (Seq : List Ast)
  | yieldN (Target : TargetPayload) (Ty : String)

/-! ## Step-function states as data

`awsstepfunctions` constructs are modelled as pure data.  A chain
(`awsstepfunctions.Chain`) is a `List State`; `Chain_Start f` is `[f]` and
`chain.Next f` is `chain ++ [f]`, so the nil chain is `[]`.  A catch branch
(`AddCatch(handler, ResultPath)`) records its handler chain and result path.
-/

mutual
/-- One state of the emitted state machine, carrying its construct id and
the kind-specific fields that `typestep.go` sets. -/
inductive State where
  /-- `awsstepfunctionstasks.NewLambdaInvoke` (typestep.go:274): id,
  `InputPath`, `LambdaFunction` (by construct id), attached catch branches. -/
  | invoke (id inputPath lambdaFunction : String) (catches : List Catch) : State
  /-- `awsstepfunctions.NewMap` (typestep.go:251): id, `ItemsPath`,
  `MaxConcurrency`, and the `ItemProcessor` sub-chain. -/
  | foreachS (id itemsPath : String) (maxConcurrency : Int) (sub : List State) : State
  /-- `awsstepfunctionstasks.NewSqsSendMessage`: id, `Queue`, `MessageBody`
  (a JSON path, via `TaskInput_FromJsonPathAt`). -/
  | sqsSend (id queue messageBody : String) : State
  /-- `awsstepfunctionstasks.NewEventBridgePutEvents` (typestep.go:354) with
  its single entry: `Detail` path, `DetailType`, `Source`, `EventBus`. -/
  | ebPut (id eventBus detail detailType src : String) : State
  /-- `awsstepfunctions.NewFail`. -/
  | failS (id : String) : State

/-- A catch branch attached by `compute.AddCatch(handler, &CatchProps{ResultPath})`. -/
inductive Catch where
  | mk (handler : List State) (resultPath : String) : Catch
end

/-- The construct id of a state: `*f.Node().Id()`. -/
def stateId : State → String
  | .invoke id _ _ _ => id
  | .foreachS id _ _ _ => id
  | .sqsSend id _ _ => id
  | .ebPut id _ _ _ _ => id
  | .failS id => id

/-! ## The compiler state (`typeStep`, typestep.go:146) -/

/-- The `typeStep` builder state.  `DeadLetterQueue` and `bus` are optional
handles (Go nil-able interface values), `eventPattern` is the captured
`DetailType` filter, `args` the JSON path the next state reads its input
from, `stack` the in-progress chain per open `Seq` level, `names` the
accumulated construct ids per level. -/
structure typeStep where
  DeadLetterQueue : Option String
  bus : Option String
  eventPattern : Option (List String)
  args : String
  stack : List (List State)
  names : List String

/-- Constructor `NewTypeStep` (typestep.go:165): fresh builder with one open (nil) chain
level and one empty accumulated name. -/
def NewTypeStep (dlq : Option String) : typeStep :=
  { DeadLetterQueue := dlq
    bus := none
    eventPattern := none
    args := ""
    stack := [[]]
    names := [""] }

/-- Method `typeStep.append` (typestep.go:184): append state `f` to the innermost
chain and extend the innermost accumulated name by `f`'s construct id.
Returns `none` where Go would panic with an out-of-range index
(`ts.stack[len(ts.stack)-1]` on an empty stack, or `ts.names` shorter than
`ts.stack`). -/
def typeStep.append (ts : typeStep) (f : State) : Option typeStep :=
  let tsal := ts.stack.length - 1
  match ts.stack[tsal]?, ts.names[tsal]? with
  | some last, some nm =>
      some { ts with
              stack := ts.stack.set tsal (last ++ [f])
              names := ts.names.set tsal (nm ++ stateId f) }
  | _, _ => none

/-- Result of a visitor callback: Go's `error` return enriched with a
`crash` alternative for runtime panics (out-of-range indexing). -/
inductive Outcome where
  | ok (ts : typeStep)
  | err (msg : String)
  | crash (msg : String)

/-- The artifact `OnLeaveMorphism` materializes: one state machine
(`NewStateMachine` with `DefinitionBody` from `ts.stack[0]`) and one trigger
rule (`NewRule` on `ts.bus` with `ts.eventPattern`, targeting the machine). -/
structure Artifact where
  DefinitionBody : List State
  RuleEventBus : String
  RuleEventPattern : Option (List String)

/-! ## Visitor callbacks (`typestep.go` lines 195–376) -/

/-- Callback `OnEnterMorphism` (typestep.go:195): no-op. -/
def OnEnterMorphism (ts : typeStep) : Outcome := .ok ts

/-- Callback `OnLeaveMorphism` (typestep.go:199): require exactly one open chain
level and a captured event source, then materialize the state machine from
`ts.stack[0]` and the trigger rule from `ts.bus` / `ts.eventPattern`. -/
def OnLeaveMorphism (ts : typeStep) : Except String Artifact :=
  if ts.stack.length ≠ 1 then .error "bad definition of compute pipeline"
  else
    match ts.bus with
    | none => .error "undefined event source for compute pipeline"
    | some b =>
        .ok { DefinitionBody := ts.stack.headD []
              RuleEventBus := b
              RuleEventPattern := ts.eventPattern }

/-- Callback `OnEnterSeq` (typestep.go:229): push a fresh nil chain level and an
empty name, reset the input path to `$`. -/
def OnEnterSeq (ts : typeStep) : typeStep :=
  { ts with stack := ts.stack ++ [[]], names := ts.names ++ [""], args := "$" }

/-- The concurrency recovered from the first node of a `Seq` sub-chain
(typestep.go:244-249): `concurency := 1; if f, ok := node.Seq[0].(duct.AstMap);
ok { if f, ok := f.F.(lambda); ok { concurency = f.concurency } }`. -/
def seqConcurrency (first : Ast) : Int :=
  match first with
  | .mapN (.lam f) => f.concurency
  | _ => 1

/-- Callback `OnLeaveSeq` (typestep.go:237): hash the innermost accumulated name to
derive `Seq<hex8>`, recover the concurrency from `node.Seq[0]` when it is a
`Map` over a `lambda` (1 otherwise), build the `ForEach` state over
`$.Payload` wrapping the popped sub-chain, pop one level and append the
`ForEach` to the now-innermost chain, reset the input path to `$`.
`crash` models Go's out-of-range panics (`ts.names[last]` with an empty
stack, `node.Seq[0]` on an empty `Seq`, `append` after popping the only
level). -/
def OnLeaveSeq (ts : typeStep) (node : List Ast) : Outcome :=
  let last := ts.stack.length - 1
  match ts.stack[last]?, ts.names[last]? with
  | some sub, some name =>
      match node[0]? with
      | none => .crash "index out of range"
      | some first =>
          let ihex := (sha256Hex name).take 8
          let foreach := State.foreachS ("Seq" ++ ihex) "$.Payload" (seqConcurrency first) sub
          let ts1 := { ts with stack := ts.stack.take last, names := ts.names.take last }
          match ts1.append foreach with
          | some ts2 => .ok { ts2 with args := "$" }
          | none => .crash "index out of range"
  | _, _ => .crash "index out of range"

/-- Callback `OnEnterMap` (typestep.go:270): for a `lambda` binding create the
`LambdaInvoke` state `Map<uuid>` reading from `ts.args`; when a dead-letter
queue is configured, attach one catch branch whose handler forwards `$` to
the dead-letter queue (`Try<uuid>`) and then fails (`Err<uuid>`), recording
the error at `$.error`; append the state.  Any other payload kind is
rejected with a descriptive error. -/
def OnEnterMap (ts : typeStep) (F : FnPayload) : Outcome :=
  match F with
  | .lam f =>
      let uuid := f.f
      let catches : List Catch :=
        match ts.DeadLetterQueue with
        | some q =>
            [Catch.mk [State.sqsSend ("Try" ++ uuid) q "$", State.failS ("Err" ++ uuid)]
              "$.error"]
        | none => []
      let compute := State.invoke ("Map" ++ uuid) ts.args f.f catches
      match ts.append compute with
      | some ts1 => .ok ts1
      | none => .crash "index out of range"
  | .other t => .err ("unkown compute type: " ++ t)

/-- Callback `OnLeaveMap` (typestep.go:309): a Lambda's response is always packed, so
the next state reads from `$.Payload`. -/
def OnLeaveMap (ts : typeStep) : typeStep :=
  { ts with args := "$.Payload" }

/-- Callback `OnEnterFrom` (typestep.go:315): for a `source` payload capture the
event bus, set the pattern's `DetailType` to the node's payload type name —
overridden by the category list when it is non-empty — and point the input
path at `$.detail`.  Any other payload kind is rejected. -/
def OnEnterFrom (ts : typeStep) (Source : SourcePayload) (Ty : String) : Outcome :=
  match Source with
  | .src f =>
      let pat := if f.cat.length ≠ 0 then f.cat else [Ty]
      .ok { ts with bus := some f.bus, eventPattern := some pat, args := "$.detail" }
  | .other t => .err ("unkown input type: " ++ t)

/-- Callback `OnLeaveFrom` (typestep.go:332): no-op. -/
def OnLeaveFrom (ts : typeStep) : typeStep := ts

/-- Callback `OnEnterYield` (typestep.go:336): create the terminal `Sink` state —
an SQS send of `ts.args` for a queue target, an EventBridge put of
`ts.args` (tagged by the first category, or the node's type name) for an
`eventbus` target — and append it.  Any other payload kind is rejected. -/
def OnEnterYield (ts : typeStep) (Target : TargetPayload) (Ty : String) : Outcome :=
  match Target with
  | .queue q =>
      let sink := State.sqsSend "Sink" q ts.args
      match ts.append sink with
      | some ts1 => .ok ts1
      | none => .crash "index out of range"
  | .ebus f =>
      let kind := match f.cat with
        | [] => Ty
        | c :: _ => c
      let sink := State.ebPut "Sink" f.bus ts.args kind f.src
      match ts.append sink with
      | some ts1 => .ok ts1
      | none => .crash "index out of range"
  | .other t => .err ("unkown reply type: " ++ t)

/-- Callback `OnLeaveYield` (typestep.go:374): no-op. -/
def OnLeaveYield (ts : typeStep) : typeStep := ts

/-! ## The traversal

The `duct` package drives the callbacks; it is an external dependency, so
the walk itself is modelled from the spec.
-/

mutual
/-- Modelled from the spec: the `duct` depth-first walk of one AST node
(spec §4.2) — missing code: `duct.Morphism.Apply`.  Each node kind fires
its enter/leave pair; a `Seq` fires `OnEnterSeq`, recursively walks its
sub-chain, then fires `OnLeaveSeq` with the node; errors and crashes abort
immediately. -/
def runAst (ts : typeStep) (a : Ast) : Outcome :=
  match a with
  | .fromN s ty =>
      match OnEnterFrom ts s ty with
      | .ok ts1 => .ok (OnLeaveFrom ts1)
      | r => r
  | .mapN f =>
      match OnEnterMap ts f with
      | .ok ts1 => .ok (OnLeaveMap ts1)
      | r => r
  | .seqN children =>
      match runList (OnEnterSeq ts) children with
      | .ok ts1 => OnLeaveSeq ts1 children
      | r => r
  | .yieldN t ty =>
      match OnEnterYield ts t ty with
      | .ok ts1 => .ok (OnLeaveYield ts1)
      | r => r

/-- Modelled from the spec: walk the nodes of one nesting level in order
(spec §4.2), aborting on the first error or crash. -/
def runList (ts : typeStep) (l : List Ast) : Outcome :=
  match l with
  | [] => .ok ts
  | a :: rest =>
      match runAst ts a with
      | .ok ts1 => runList ts1 rest
      | r => r
end

/-- Result of one compilation pass (`StateMachine`, typestep.go:177):
either the emitted artifact, a returned error (on which `StateMachine`
panics with the error value), or a runtime crash. -/
inductive CompileRes where
  | ok (a : Artifact)
  | err (msg : String)
  | crash (msg : String)

/-- Modelled from the spec: one compilation pass — missing code:
`duct.Morphism.Apply` called by `StateMachine`.  Fresh `typeStep` state,
`OnEnterMorphism`, the walk of the top nesting level, `OnLeaveMorphism`. -/
def compile (dlq : Option String) (m : List Ast) : CompileRes :=
  match OnEnterMorphism (NewTypeStep dlq) with
  | .ok ts0 =>
      match runList ts0 m with
      | .ok ts1 =>
          match OnLeaveMorphism ts1 with
          | .ok a => .ok a
          | .error e => .err e
      | .err e => .err e
      | .crash e => .crash e
  | .err e => .err e
  | .crash e => .crash e

/-! ## The function-binding constructors (`typestep.go` lines 55–92)

`Join`, `Lift` and `LiftP` wrap an `F[A,B]` binding into the internal
`lambda` payload before composing it into the morphism with the `duct`
combinators; only the payload construction lives in this repository. -/

/-- Combinator `Join` (typestep.go:55): `lambda{concurency: 1, f: f.F()}`. -/
def Join (f : String) : lambda := { concurency := 1, f := f }

/-- Combinator `Lift` (typestep.go:75): `lambda{concurency: 1, f: f.F()}`. -/
def Lift (f : String) : lambda := { concurency := 1, f := f }

/-- Combinator `LiftP` (typestep.go:85): `lambda{concurency: n, f: f.F()}`. -/
def LiftP (n : Int) (f : String) : lambda := { concurency := n, f := f }

/-! ## Predicates and concrete instances used by the verification -/

/-- The state most recently appended to the innermost chain. -/
def emitted (ts : typeStep) : Option State :=
  match ts.stack.getLast? with
  | some chain => chain.getLast?
  | none => none

mutual
/-- A state carries no catch branch anywhere (also inside `ForEach`
sub-chains): an `invoke` state's catch list is empty and sub-chains are
catch-free recursively. -/
def stateCF : State → Bool
  | .invoke _ _ _ cs => cs.isEmpty
  | .foreachS _ _ _ sub => listCF sub
  | .sqsSend _ _ _ => true
  | .ebPut _ _ _ _ _ => true
  | .failS _ => true

/-- A chain is catch-free when each of its states is. -/
def listCF : List State → Bool
  | [] => true
  | s :: r => stateCF s && listCF r
end

/-- Every open chain level of a compiler stack is catch-free. -/
def stackCF : List (List State) → Bool
  | [] => true
  | c :: r => listCF c && stackCF r

mutual
/-- Inner pipeline nodes the compiler accepts: `lambda`-backed `Map`s and
non-empty `Seq`s of such nodes. -/
inductive GoodInner : Ast → Prop where
  | map (f : lambda) : GoodInner (.mapN (.lam f))
  | seq (c : Ast) (cs : List Ast) : GoodInner c → GoodList cs → GoodInner (.seqN (c :: cs))

/-- A list of acceptable inner nodes. -/
inductive GoodList : List Ast → Prop where
  | nil : GoodList []
  | cons (a : Ast) (l : List Ast) : GoodInner a → GoodList l → GoodList (a :: l)
end

/-- A well-formed pipeline: exactly one `From` root carrying a `source`
payload, acceptable inner nodes, and exactly one terminal `Yield` whose
target is a queue or an event bus (spec section 3). -/
def wellFormed (m : List Ast) : Prop :=
  ∃ s ty mid tgt ty2,
    m = Ast.fromN (.src s) ty :: (mid ++ [Ast.yieldN tgt ty2]) ∧
    GoodList mid ∧
    ((∃ q, tgt = TargetPayload.queue q) ∨ (∃ e, tgt = TargetPayload.ebus e))

/-- A concrete compiler state with two open levels, as after a `From`, a
`Map` and an `OnEnterSeq`. -/
def exTS : typeStep := ⟨none, none, none, "$.Payload", [[], []], ["", ""]⟩

/-- A concrete one-node `Seq` sub-chain. -/
def exNode : List Ast := [Ast.mapN (.lam (Join "A"))]

/-- The compiler state `OnLeaveSeq` produces from `exTS` and `exNode`. -/
def exOut : typeStep :=
  ⟨none, none, none, "$",
   [] ++ [[] ++ [State.foreachS ("Seq" ++ (sha256Hex "").take 8) "$.Payload"
     (seqConcurrency (Ast.mapN (.lam (Join "A")))) []]],
   [] ++ ["" ++ stateId (State.foreachS ("Seq" ++ (sha256Hex "").take 8) "$.Payload"
     (seqConcurrency (Ast.mapN (.lam (Join "A")))) [])]⟩

/-- A concrete straight-line pipeline. -/
def exPipe : List Ast :=
  [Ast.fromN (.src ⟨[], "bus"⟩) "A",
   Ast.mapN (.lam (Join "F")),
   Ast.yieldN (.queue "q") "V"]

/-- A concrete well-formed pipeline with a fan-out. -/
def exGoodM : List Ast :=
  [Ast.fromN (.src ⟨[], "bus"⟩) "A",
   Ast.mapN (.lam (Join "F")),
   Ast.seqN [Ast.mapN (.lam (LiftP 3 "G"))],
   Ast.yieldN (.queue "q") "V"]

/-! ## Theorems

First the SHA-256 test vector, then list and compiler-state lemmas, then
the claim theorems with their witnesses.
-/

set_option maxRecDepth 100000 in
/-- SHA-256 test vector: digest of the empty message (FIPS 180-2). -/
theorem sha256Hex_empty_vector :
    sha256Hex "" = "e3b0c44298fc1c149afbf4c8996fb92427ae41e4649b934ca495991b7852b855" := by
  decide

/-! ## List helpers -/

/-- Setting the position just past a prefix replaces the singleton tail. -/
theorem set_concat {α : Type} (l : List α) (a b : α) :
    (l ++ [a]).set l.length b = l ++ [b] := by
  induction l with
  | nil => rfl
  | cons x xs ih => simp [List.set, ih]

/-- Setting the last position makes the written value the last element. -/
theorem getLast?_set_last {α : Type} (l : List α) (v : α) (h : l ≠ []) :
    (l.set (l.length - 1) v).getLast? = some v := by
  induction l with
  | nil => simp at h
  | cons x xs ih =>
      cases xs with
      | nil => rfl
      | cons y ys =>
          have h2 : (y :: ys) ≠ [] := by simp
          have hlen : (x :: y :: ys).length - 1 = ((y :: ys).length - 1) + 1 := by simp
          rw [hlen, List.set_cons_succ]
          cases hset : (y :: ys).set ((y :: ys).length - 1) v with
          | nil =>
              have := congrArg List.length hset
              simp at this
          | cons z zs =>
              rw [List.getLast?_cons_cons]
              rw [← hset]
              exact ih h2

/-- Indexing just past a prefix reads the singleton tail. -/
theorem getElem?_concat {α : Type} (l : List α) (a : α) : (l ++ [a])[l.length]? = some a :=
  List.getElem?_concat_length l a

/-! ### Closed forms and inversions of the compiler-state operations -/

/-- Closed form of `typeStep.append` on a state whose innermost level is explicit: the new
state lands at the end of the innermost chain and its id at the end of the
innermost accumulated name. -/
theorem append_concat (dlq bus : Option String) (pat : Option (List String)) (args : String)
    (front : List (List State)) (last : List State)
    (nfront : List String) (nlast : String) (f : State)
    (h : nfront.length = front.length) :
    typeStep.append ⟨dlq, bus, pat, args, front ++ [last], nfront ++ [nlast]⟩ f =
      some ⟨dlq, bus, pat, args, front ++ [last ++ [f]], nfront ++ [nlast ++ stateId f]⟩ := by
  have hs2 : (nfront ++ [nlast])[front.length]? = some nlast := by
    rw [← h]; exact getElem?_concat nfront nlast
  have hset2 : (nfront ++ [nlast]).set front.length (nlast ++ stateId f) =
      nfront ++ [nlast ++ stateId f] := by
    rw [← h]; exact set_concat nfront nlast (nlast ++ stateId f)
  simp [typeStep.append, show (front ++ [last]).length - 1 = front.length by simp,
        getElem?_concat, set_concat, hs2, hset2]

/-- Closed form of `OnLeaveSeq` on a compiler state whose two innermost levels are
explicit: the popped sub-chain is wrapped in a `ForEach` named from the
SHA-256 of the innermost accumulated name, with the concurrency recovered
from the first sub-chain node, appended one level down; the input path
resets to `$`. -/
theorem OnLeaveSeq_concat (dlq bus : Option String) (pat : Option (List String)) (args : String)
    (front : List (List State)) (outer sub : List State)
    (nfront : List String) (onm nm : String)
    (first : Ast) (rest : List Ast)
    (h : nfront.length = front.length) :
    OnLeaveSeq ⟨dlq, bus, pat, args, front ++ [outer, sub], nfront ++ [onm, nm]⟩
        (first :: rest) =
      .ok ⟨dlq, bus, pat, "$",
            front ++ [outer ++ [State.foreachS ("Seq" ++ (sha256Hex nm).take 8) "$.Payload"
                        (seqConcurrency first) sub]],
            nfront ++ [onm ++ stateId (State.foreachS ("Seq" ++ (sha256Hex nm).take 8) "$.Payload"
                        (seqConcurrency first) sub)]⟩ := by
  have hsplit : front ++ [outer, sub] = (front ++ [outer]) ++ [sub] := by simp
  have hnsplit : nfront ++ [onm, nm] = (nfront ++ [onm]) ++ [nm] := by simp
  have hL : (front ++ [outer, sub]).length - 1 = (front ++ [outer]).length := by simp
  have hs1 : (front ++ [outer, sub])[(front ++ [outer]).length]? = some sub := by
    rw [hsplit]; exact getElem?_concat (front ++ [outer]) sub
  have hs2 : (nfront ++ [onm, nm])[(front ++ [outer]).length]? = some nm := by
    rw [hnsplit, show (front ++ [outer]).length = (nfront ++ [onm]).length by simp [h]]
    exact getElem?_concat (nfront ++ [onm]) nm
  have ht1 : (front ++ [outer, sub]).take (front ++ [outer]).length = front ++ [outer] := by
    rw [hsplit]; exact List.take_left (front ++ [outer]) [sub]
  have ht2 : (nfront ++ [onm, nm]).take (front ++ [outer]).length = nfront ++ [onm] := by
    rw [hnsplit, show (front ++ [outer]).length = (nfront ++ [onm]).length by simp [h]]
    exact List.take_left (nfront ++ [onm]) [nm]
  have happ := append_concat dlq bus pat args front outer nfront onm
      (State.foreachS ("Seq" ++ (sha256Hex nm).take 8) "$.Payload" (seqConcurrency first) sub) h
  simp only [OnLeaveSeq, hL, hs1, hs2, List.getElem?_cons_zero, ht1, ht2]
  simp [happ]

/-- Inversion of a successful `typeStep.append`. -/
theorem append_ok_inv {ts : typeStep} {f : State} {ts' : typeStep}
    (h : ts.append f = some ts') :
    ∃ last nm, ts.stack[ts.stack.length - 1]? = some last ∧
      ts.names[ts.stack.length - 1]? = some nm ∧
      ts' = { ts with stack := ts.stack.set (ts.stack.length - 1) (last ++ [f]),
                      names := ts.names.set (ts.stack.length - 1) (nm ++ stateId f) } := by
  unfold typeStep.append at h
  cases h1 : ts.stack[ts.stack.length - 1]? with
  | none => simp only [h1] at h; exact Option.noConfusion h
  | some last =>
      cases h2 : ts.names[ts.stack.length - 1]? with
      | none => simp only [h1, h2] at h; exact Option.noConfusion h
      | some nm =>
          simp only [h1, h2, Option.some.injEq] at h
          exact ⟨last, nm, rfl, rfl, h.symm⟩

/-- A successful `typeStep.append` preserves the level structure and every
scalar field of the compiler state. -/
theorem append_fields {ts : typeStep} {f : State} {ts' : typeStep}
    (h : ts.append f = some ts') :
    ts'.stack.length = ts.stack.length ∧ ts'.names.length = ts.names.length ∧
    ts'.DeadLetterQueue = ts.DeadLetterQueue ∧ ts'.bus = ts.bus ∧
    ts'.eventPattern = ts.eventPattern ∧ ts'.args = ts.args := by
  obtain ⟨last, nm, h1, h2, rfl⟩ := append_ok_inv h
  simp

/-- After a successful `typeStep.append` the appended state is the last of
the innermost chain. -/
theorem append_emitted {ts : typeStep} {f : State} {ts' : typeStep}
    (h : ts.append f = some ts') : emitted ts' = some f := by
  obtain ⟨last, nm, h1, h2, rfl⟩ := append_ok_inv h
  have hne : ts.stack ≠ [] := by
    intro hc
    rw [hc] at h1
    simp at h1
  unfold emitted
  simp only
  rw [getLast?_set_last _ _ hne]
  simp

/-- Success of `typeStep.append` whenever at least one chain level is open
and `names` runs parallel to `stack`. -/
theorem append_ok {ts : typeStep} (f : State)
    (hne : ts.stack ≠ []) (hns : ts.names.length = ts.stack.length) :
    ∃ ts', ts.append f = some ts' := by
  have hpos : 0 < ts.stack.length := List.length_pos.mpr hne
  cases h1 : ts.stack[ts.stack.length - 1]? with
  | none =>
      have := List.getElem?_eq_none_iff.mp h1
      omega
  | some last =>
  cases h2 : ts.names[ts.stack.length - 1]? with
  | none =>
      have := List.getElem?_eq_none_iff.mp h2
      omega
  | some nm =>
      refine ⟨{ ts with
          stack := ts.stack.set (ts.stack.length - 1) (last ++ [f]),
          names := ts.names.set (ts.stack.length - 1) (nm ++ stateId f) }, ?_⟩
      unfold typeStep.append
      simp only [h1, h2]

theorem OnLeaveSeq_ok_inv {ts : typeStep} {node : List Ast} {ts' : typeStep}
    (h : OnLeaveSeq ts node = .ok ts') :
    ∃ sub name first ts2,
      ts.stack[ts.stack.length - 1]? = some sub ∧
      ts.names[ts.stack.length - 1]? = some name ∧
      node[0]? = some first ∧
      typeStep.append { ts with stack := ts.stack.take (ts.stack.length - 1),
                                names := ts.names.take (ts.stack.length - 1) }
          (State.foreachS ("Seq" ++ (sha256Hex name).take 8) "$.Payload"
            (seqConcurrency first) sub) = some ts2 ∧
      ts' = { ts2 with args := "$" } := by
  unfold OnLeaveSeq at h
  cases h1 : ts.stack[ts.stack.length - 1]? with
  | none => simp only [h1] at h; exact Outcome.noConfusion h
  | some sub =>
  cases h2 : ts.names[ts.stack.length - 1]? with
  | none => simp only [h1, h2] at h; exact Outcome.noConfusion h
  | some name =>
  cases h3 : node[0]? with
  | none => simp only [h1, h2, h3] at h; exact Outcome.noConfusion h
  | some first =>
  cases h4 : typeStep.append { ts with stack := ts.stack.take (ts.stack.length - 1),
                                       names := ts.names.take (ts.stack.length - 1) }
      (State.foreachS ("Seq" ++ (sha256Hex name).take 8) "$.Payload"
        (seqConcurrency first) sub) with
  | none => simp only [h1, h2, h3, h4] at h; exact Outcome.noConfusion h
  | some ts2 =>
      simp only [h1, h2, h3, h4, Outcome.ok.injEq] at h
      exact ⟨sub, name, first, ts2, rfl, rfl, rfl, h4, h.symm⟩

/-- A successful `OnLeaveSeq` pops exactly one level, keeps the dead-letter
queue, bus and pattern, and resets the input path to `$`. -/
theorem OnLeaveSeq_fields {ts : typeStep} {node : List Ast} {ts' : typeStep}
    (hns : ts.names.length = ts.stack.length)
    (h : OnLeaveSeq ts node = .ok ts') :
    ts'.stack.length = ts.stack.length - 1 ∧ ts'.names.length = ts.names.length - 1 ∧
    ts'.DeadLetterQueue = ts.DeadLetterQueue ∧ ts'.bus = ts.bus ∧
    ts'.eventPattern = ts.eventPattern ∧ ts'.args = "$" ∧ 1 ≤ ts'.stack.length := by
  obtain ⟨sub, name, first, ts2, h1, h2, h3, h4, rfl⟩ := OnLeaveSeq_ok_inv h
  have hlt : ts.stack.length - 1 < ts.stack.length := by
    by_contra hc
    rw [List.getElem?_eq_none (by omega)] at h1
    exact Option.noConfusion h1
  obtain ⟨last2, nm2, hg1, hg2, rfl⟩ := append_ok_inv h4
  simp only at hg1 hg2
  have h5 : 0 < (List.take (ts.stack.length - 1) ts.stack).length := by
    by_contra hc
    rw [List.getElem?_eq_none (by omega)] at hg1
    exact Option.noConfusion hg1
  rw [List.length_take] at h5
  refine ⟨?_, ?_, ?_, ?_, ?_, ?_, ?_⟩ <;>
    simp only [List.length_set, List.length_take] <;>
    first
    | rfl
    | omega

/-- Success of `OnLeaveSeq` whenever at least two chain levels are open, the
names run parallel, and the `Seq` node is non-empty. -/
theorem OnLeaveSeq_ok {ts : typeStep} (node : List Ast)
    (hlen : 2 ≤ ts.stack.length) (hns : ts.names.length = ts.stack.length)
    (hnode : node ≠ []) :
    ∃ ts', OnLeaveSeq ts node = .ok ts' := by
  cases h1 : ts.stack[ts.stack.length - 1]? with
  | none =>
      have := List.getElem?_eq_none_iff.mp h1
      omega
  | some sub =>
  cases h2 : ts.names[ts.stack.length - 1]? with
  | none =>
      have := List.getElem?_eq_none_iff.mp h2
      omega
  | some name =>
  cases h3 : node[0]? with
  | none =>
      have := List.getElem?_eq_none_iff.mp h3
      have : node = [] := by
        cases node with
        | nil => rfl
        | cons a r => simp at this
      exact absurd this hnode
  | some first =>
      have hne2 : (List.take (ts.stack.length - 1) ts.stack) ≠ [] := by
        intro hc
        have := congrArg List.length hc
        simp [List.length_take] at this
        omega
      have hns2 : (List.take (ts.stack.length - 1) ts.names).length =
          (List.take (ts.stack.length - 1) ts.stack).length := by
        simp [List.length_take]
        omega
      obtain ⟨ts2, h4⟩ := @append_ok { ts with
          stack := ts.stack.take (ts.stack.length - 1),
          names := ts.names.take (ts.stack.length - 1) }
        (State.foreachS ("Seq" ++ (sha256Hex name).take 8)
          "$.Payload" (seqConcurrency first) sub)
        hne2 hns2
      refine ⟨{ ts2 with args := "$" }, ?_⟩
      unfold OnLeaveSeq
      simp only [h1, h2, h3, h4]

/-- A successful `OnEnterMap` preserves the level structure and the scalar
fields of the compiler state. -/
theorem OnEnterMap_fields {ts : typeStep} {F : FnPayload} {ts' : typeStep}
    (h : OnEnterMap ts F = .ok ts') :
    ts'.stack.length = ts.stack.length ∧ ts'.names.length = ts.names.length ∧
    ts'.DeadLetterQueue = ts.DeadLetterQueue ∧ ts'.bus = ts.bus ∧
    ts'.eventPattern = ts.eventPattern ∧ ts'.args = ts.args := by
  cases F with
  | other t => simp [OnEnterMap] at h
  | lam f =>
      unfold OnEnterMap at h
      cases h4 : ts.append (State.invoke ("Map" ++ f.f) ts.args f.f
          (match ts.DeadLetterQueue with
           | some q => [Catch.mk [State.sqsSend ("Try" ++ f.f) q "$",
                          State.failS ("Err" ++ f.f)] "$.error"]
           | none => [])) with
      | none => simp only [h4] at h; exact Outcome.noConfusion h
      | some ts1 =>
          simp only [h4, Outcome.ok.injEq] at h
          exact h ▸ append_fields h4

/-- A successful `OnEnterYield` preserves the level structure and the
scalar fields of the compiler state. -/
theorem OnEnterYield_fields {ts : typeStep} {T : TargetPayload} {ty : String} {ts' : typeStep}
    (h : OnEnterYield ts T ty = .ok ts') :
    ts'.stack.length = ts.stack.length ∧ ts'.names.length = ts.names.length ∧
    ts'.DeadLetterQueue = ts.DeadLetterQueue ∧ ts'.bus = ts.bus ∧
    ts'.eventPattern = ts.eventPattern ∧ ts'.args = ts.args := by
  cases T with
  | other t => simp [OnEnterYield] at h
  | queue q =>
      unfold OnEnterYield at h
      cases h4 : ts.append (State.sqsSend "Sink" q ts.args) with
      | none => simp only [h4] at h; exact Outcome.noConfusion h
      | some ts1 =>
          simp only [h4, Outcome.ok.injEq] at h
          exact h ▸ append_fields h4
  | ebus f =>
      unfold OnEnterYield at h
      cases h4 : ts.append (State.ebPut "Sink" f.bus ts.args
          (match f.cat with | [] => ty | c :: _ => c) f.src) with
      | none => simp only [h4] at h; exact Outcome.noConfusion h
      | some ts1 =>
          simp only [h4, Outcome.ok.injEq] at h
          exact h ▸ append_fields h4

/-- A successful `OnEnterFrom` keeps the chain levels untouched and points
the input path at `$.detail`. -/
theorem OnEnterFrom_fields {ts : typeStep} {S : SourcePayload} {ty : String} {ts' : typeStep}
    (h : OnEnterFrom ts S ty = .ok ts') :
    ts'.stack = ts.stack ∧ ts'.names = ts.names ∧
    ts'.DeadLetterQueue = ts.DeadLetterQueue ∧ ts'.args = "$.detail" := by
  cases S with
  | other t => simp [OnEnterFrom] at h
  | src f =>
      unfold OnEnterFrom at h
      simp only [Outcome.ok.injEq] at h
      exact h ▸ ⟨rfl, rfl, rfl, rfl⟩

/-! ### Traversal invariants -/

mutual
/-- Walking one node preserves the number of open levels, the
stack-names parallelism, and the dead-letter configuration. -/
theorem runAst_preserves (a : Ast) : ∀ (ts ts' : typeStep),
    ts.names.length = ts.stack.length →
    runAst ts a = .ok ts' →
    ts'.names.length = ts.names.length ∧ ts'.stack.length = ts.stack.length ∧
    ts'.DeadLetterQueue = ts.DeadLetterQueue := by
  intro ts ts' hns h
  cases a with
  | fromN s ty =>
      unfold runAst at h
      cases he : OnEnterFrom ts s ty with
      | ok ts1 =>
          rw [he] at h
          simp only [Outcome.ok.injEq] at h
          obtain ⟨h1, h2, h3, _⟩ := OnEnterFrom_fields he
          subst h
          exact ⟨by simp [OnLeaveFrom, h2], by simp [OnLeaveFrom, h1], by simp [OnLeaveFrom, h3]⟩
      | err e => rw [he] at h; exact Outcome.noConfusion h
      | crash e => rw [he] at h; exact Outcome.noConfusion h
  | mapN f =>
      unfold runAst at h
      cases he : OnEnterMap ts f with
      | ok ts1 =>
          rw [he] at h
          simp only [Outcome.ok.injEq] at h
          obtain ⟨h1, h2, h3, _⟩ := OnEnterMap_fields he
          subst h
          exact ⟨by simp [OnLeaveMap, h2], by simp [OnLeaveMap, h1], by simp [OnLeaveMap, h3]⟩
      | err e => rw [he] at h; exact Outcome.noConfusion h
      | crash e => rw [he] at h; exact Outcome.noConfusion h
  | yieldN t ty =>
      unfold runAst at h
      cases he : OnEnterYield ts t ty with
      | ok ts1 =>
          rw [he] at h
          simp only [Outcome.ok.injEq] at h
          obtain ⟨h1, h2, h3, _⟩ := OnEnterYield_fields he
          subst h
          exact ⟨by simp [OnLeaveYield, h2], by simp [OnLeaveYield, h1], by simp [OnLeaveYield, h3]⟩
      | err e => rw [he] at h; exact Outcome.noConfusion h
      | crash e => rw [he] at h; exact Outcome.noConfusion h
  | seqN children =>
      unfold runAst at h
      cases hr : runList (OnEnterSeq ts) children with
      | ok ts1 =>
          rw [hr] at h
          have hns0 : (OnEnterSeq ts).names.length = (OnEnterSeq ts).stack.length := by
            simp [OnEnterSeq, hns]
          obtain ⟨hn1, hs1, hq1⟩ := runList_preserves children (OnEnterSeq ts) ts1 hns0 hr
          have hns1 : ts1.names.length = ts1.stack.length := by
            rw [hn1, hs1, hns0]
          obtain ⟨hs2, hn2, hq2, _, _, _, _⟩ := OnLeaveSeq_fields hns1 h
          refine ⟨?_, ?_, ?_⟩
          · rw [hn2, hn1]
            simp [OnEnterSeq]
          · rw [hs2, hs1]
            simp [OnEnterSeq]
          · rw [hq2, hq1]
            simp [OnEnterSeq]
      | err e => rw [hr] at h; exact Outcome.noConfusion h
      | crash e => rw [hr] at h; exact Outcome.noConfusion h

/-- Walking a node list preserves the number of open levels, the
stack-names parallelism, and the dead-letter configuration. -/
theorem runList_preserves (l : List Ast) : ∀ (ts ts' : typeStep),
    ts.names.length = ts.stack.length →
    runList ts l = .ok ts' →
    ts'.names.length = ts.names.length ∧ ts'.stack.length = ts.stack.length ∧
    ts'.DeadLetterQueue = ts.DeadLetterQueue := by
  intro ts ts' hns h
  cases l with
  | nil =>
      unfold runList at h
      simp only [Outcome.ok.injEq] at h
      subst h
      exact ⟨rfl, rfl, rfl⟩
  | cons a rest =>
      unfold runList at h
      cases hr : runAst ts a with
      | ok ts1 =>
          rw [hr] at h
          obtain ⟨hn1, hs1, hq1⟩ := runAst_preserves a ts ts1 hns hr
          have hns1 : ts1.names.length = ts1.stack.length := by rw [hn1, hs1, hns]
          obtain ⟨hn2, hs2, hq2⟩ := runList_preserves rest ts1 ts' hns1 h
          exact ⟨by rw [hn2, hn1], by rw [hs2, hs1], by rw [hq2, hq1]⟩
      | err e => rw [hr] at h; exact Outcome.noConfusion h
      | crash e => rw [hr] at h; exact Outcome.noConfusion h
end

/-- Catch-freedom distributes over chain concatenation. -/
theorem listCF_append (l1 l2 : List State) :
    listCF (l1 ++ l2) = (listCF l1 && listCF l2) := by
  induction l1 with
  | nil => simp [listCF]
  | cons s r ih => simp [listCF, ih, Bool.and_assoc]

/-- Catch-freedom distributes over stack concatenation. -/
theorem stackCF_append (l1 l2 : List (List State)) :
    stackCF (l1 ++ l2) = (stackCF l1 && stackCF l2) := by
  induction l1 with
  | nil => simp [stackCF]
  | cons c r ih => simp [stackCF, ih, Bool.and_assoc]

/-- Any level of a catch-free stack is a catch-free chain. -/
theorem stackCF_get {l : List (List State)} {i : Nat} {c : List State}
    (hcf : stackCF l = true) (h : l[i]? = some c) : listCF c = true := by
  induction l generalizing i with
  | nil => simp at h
  | cons x r ih =>
      simp only [stackCF, Bool.and_eq_true] at hcf
      cases i with
      | zero => simp at h; exact h ▸ hcf.1
      | succ j => exact ih hcf.2 (by simpa using h)

/-- Replacing a level by a catch-free chain keeps the stack catch-free. -/
theorem stackCF_set {l : List (List State)} {i : Nat} {v : List State}
    (hcf : stackCF l = true) (hv : listCF v = true) : stackCF (l.set i v) = true := by
  induction l generalizing i with
  | nil => simpa [List.set] using hcf
  | cons x r ih =>
      simp only [stackCF, Bool.and_eq_true] at hcf
      cases i with
      | zero => simp [List.set, stackCF, hv, hcf.2]
      | succ j => simp [List.set, stackCF, hcf.1, ih hcf.2]

/-- A prefix of a catch-free stack is catch-free. -/
theorem stackCF_take {l : List (List State)} (n : Nat)
    (hcf : stackCF l = true) : stackCF (l.take n) = true := by
  induction l generalizing n with
  | nil => simp [stackCF]
  | cons x r ih =>
      simp only [stackCF, Bool.and_eq_true] at hcf
      cases n with
      | zero => simp [stackCF]
      | succ m => simp [List.take, stackCF, hcf.1, ih m hcf.2]

/-- Appending a catch-free state keeps the stack catch-free. -/
theorem append_CF {ts : typeStep} {f : State} {ts' : typeStep}
    (hcf : stackCF ts.stack = true) (hf : stateCF f = true)
    (h : ts.append f = some ts') : stackCF ts'.stack = true := by
  obtain ⟨last, nm, h1, h2, rfl⟩ := append_ok_inv h
  have hl : listCF last = true := stackCF_get hcf h1
  apply stackCF_set hcf
  simp [listCF_append, listCF, hl, hf]

mutual
/-- With no dead-letter queue configured, walking one node keeps every
chain level catch-free. -/
theorem runAst_CF (a : Ast) : ∀ (ts ts' : typeStep),
    ts.DeadLetterQueue = none → stackCF ts.stack = true →
    runAst ts a = .ok ts' →
    stackCF ts'.stack = true ∧ ts'.DeadLetterQueue = none := by
  intro ts ts' hdlq hcf h
  cases a with
  | fromN s ty =>
      unfold runAst at h
      cases he : OnEnterFrom ts s ty with
      | ok ts1 =>
          rw [he] at h
          simp only [Outcome.ok.injEq] at h
          obtain ⟨h1, _, h3, _⟩ := OnEnterFrom_fields he
          subst h
          exact ⟨by simpa [OnLeaveFrom, h1] using hcf, by simp [OnLeaveFrom, h3, hdlq]⟩
      | err e => rw [he] at h; exact Outcome.noConfusion h
      | crash e => rw [he] at h; exact Outcome.noConfusion h
  | mapN f =>
      cases f with
      | other t => simp [runAst, OnEnterMap] at h
      | lam fn =>
          unfold runAst OnEnterMap at h
          rw [hdlq] at h
          cases h4 : ts.append (State.invoke ("Map" ++ fn.f) ts.args fn.f []) with
          | none => simp only [h4] at h; exact Outcome.noConfusion h
          | some ts1 =>
              simp only [h4, Outcome.ok.injEq] at h
              subst h
              obtain ⟨_, _, hq, _, _, _⟩ := append_fields h4
              have := append_CF hcf (by simp [stateCF, List.isEmpty]) h4
              exact ⟨by simpa [OnLeaveMap] using this, by simp [OnLeaveMap, hq, hdlq]⟩
  | yieldN t ty =>
      cases t with
      | other s => simp [runAst, OnEnterYield] at h
      | queue q =>
          unfold runAst OnEnterYield at h
          cases h4 : ts.append (State.sqsSend "Sink" q ts.args) with
          | none => simp only [h4] at h; exact Outcome.noConfusion h
          | some ts1 =>
              simp only [h4, Outcome.ok.injEq] at h
              subst h
              obtain ⟨_, _, hq, _, _, _⟩ := append_fields h4
              have := append_CF hcf (by simp [stateCF]) h4
              exact ⟨by simpa [OnLeaveYield] using this, by simp [OnLeaveYield, hq, hdlq]⟩
      | ebus f =>
          unfold runAst OnEnterYield at h
          cases h4 : ts.append (State.ebPut "Sink" f.bus ts.args
              (match f.cat with | [] => ty | c :: _ => c) f.src) with
          | none => simp only [h4] at h; exact Outcome.noConfusion h
          | some ts1 =>
              simp only [h4, Outcome.ok.injEq] at h
              subst h
              obtain ⟨_, _, hq, _, _, _⟩ := append_fields h4
              have := append_CF hcf (by simp [stateCF]) h4
              exact ⟨by simpa [OnLeaveYield] using this, by simp [OnLeaveYield, hq, hdlq]⟩
  | seqN children =>
      unfold runAst at h
      cases hr : runList (OnEnterSeq ts) children with
      | ok ts1 =>
          rw [hr] at h
          have hcf0 : stackCF (OnEnterSeq ts).stack = true := by
            simp [OnEnterSeq, stackCF_append, hcf, stackCF, listCF]
          have hdlq0 : (OnEnterSeq ts).DeadLetterQueue = none := by simp [OnEnterSeq, hdlq]
          obtain ⟨hcf1, hdlq1⟩ := runAst_CF_list children (OnEnterSeq ts) ts1 hdlq0 hcf0 hr
          obtain ⟨sub, name, first, ts2, h1, h2, h3, h4, rfl⟩ := OnLeaveSeq_ok_inv h
          have hsub : listCF sub = true := stackCF_get hcf1 h1
          have hcf2 : stackCF (List.take (ts1.stack.length - 1) ts1.stack) = true :=
            stackCF_take _ hcf1
          have := append_CF hcf2 (by simpa [stateCF] using hsub) h4
          obtain ⟨_, _, hq, _, _, _⟩ := append_fields h4
          exact ⟨by simpa using this, by simpa [hq] using hdlq1⟩
      | err e => rw [hr] at h; exact Outcome.noConfusion h
      | crash e => rw [hr] at h; exact Outcome.noConfusion h

/-- With no dead-letter queue configured, walking a node list keeps every
chain level catch-free. -/
theorem runAst_CF_list (l : List Ast) : ∀ (ts ts' : typeStep),
    ts.DeadLetterQueue = none → stackCF ts.stack = true →
    runList ts l = .ok ts' →
    stackCF ts'.stack = true ∧ ts'.DeadLetterQueue = none := by
  intro ts ts' hdlq hcf h
  cases l with
  | nil =>
      unfold runList at h
      simp only [Outcome.ok.injEq] at h
      subst h
      exact ⟨hcf, hdlq⟩
  | cons a rest =>
      unfold runList at h
      cases hr : runAst ts a with
      | ok ts1 =>
          rw [hr] at h
          obtain ⟨hcf1, hdlq1⟩ := runAst_CF a ts ts1 hdlq hcf hr
          exact runAst_CF_list rest ts1 ts' hdlq1 hcf1 h
      | err e => rw [hr] at h; exact Outcome.noConfusion h
      | crash e => rw [hr] at h; exact Outcome.noConfusion h
end

/-- Inversion of a successful `OnLeaveMorphism`. -/
theorem OnLeaveMorphism_ok_inv {ts : typeStep} {a : Artifact}
    (h : OnLeaveMorphism ts = .ok a) :
    ts.stack.length = 1 ∧ ∃ b, ts.bus = some b ∧
      a = ⟨ts.stack.headD [], b, ts.eventPattern⟩ := by
  unfold OnLeaveMorphism at h
  by_cases hc : ts.stack.length ≠ 1
  · rw [if_pos hc] at h
    exact Except.noConfusion h
  · rw [if_neg hc] at h
    cases hb : ts.bus with
    | none => rw [hb] at h; exact Except.noConfusion h
    | some b =>
        rw [hb] at h
        simp only [Except.ok.injEq] at h
        exact ⟨by omega, b, rfl, h.symm⟩

/-- The head of a catch-free stack is a catch-free chain. -/
theorem stackCF_headD {l : List (List State)} (hcf : stackCF l = true) :
    listCF (l.headD []) = true := by
  cases l with
  | nil => simp [listCF]
  | cons c r =>
      simp only [stackCF, Bool.and_eq_true] at hcf
      simpa using hcf.1

/-- A compilation without a dead-letter queue emits a catch-free artifact. -/
theorem compile_none_CF {m : List Ast} {a : Artifact}
    (h : compile none m = .ok a) : listCF a.DefinitionBody = true := by
  unfold compile OnEnterMorphism at h
  dsimp only at h
  cases hr : runList (NewTypeStep none) m with
  | ok ts1 =>
      rw [hr] at h
      dsimp only at h
      have h0 : stackCF (NewTypeStep none).stack = true := by
        simp [NewTypeStep, stackCF, listCF]
      obtain ⟨hcf1, _⟩ := runAst_CF_list m (NewTypeStep none) ts1 rfl h0 hr
      cases hm : OnLeaveMorphism ts1 with
      | error e => rw [hm] at h; exact CompileRes.noConfusion h
      | ok a2 =>
          rw [hm] at h
          dsimp only at h
          simp only [CompileRes.ok.injEq] at h
          subst h
          obtain ⟨_, b, _, rfl⟩ := OnLeaveMorphism_ok_inv hm
          exact stackCF_headD hcf1
  | err e => rw [hr] at h; dsimp only at h; exact CompileRes.noConfusion h
  | crash e => rw [hr] at h; dsimp only at h; exact CompileRes.noConfusion h

mutual
/-- Walking an acceptable inner node always succeeds and preserves the
level structure, the captured bus/pattern and the dead-letter queue. -/
theorem runAst_good (a : Ast) (h : GoodInner a) : ∀ (ts : typeStep),
    ts.names.length = ts.stack.length → 1 ≤ ts.stack.length →
    ∃ ts', runAst ts a = .ok ts' ∧
      ts'.stack.length = ts.stack.length ∧ ts'.names.length = ts.names.length ∧
      ts'.bus = ts.bus ∧ ts'.eventPattern = ts.eventPattern ∧
      ts'.DeadLetterQueue = ts.DeadLetterQueue := by
  intro ts hns hpos
  cases h with
  | map f =>
      have hne : ts.stack ≠ [] := by
        intro hc
        rw [hc] at hpos
        simp at hpos
      obtain ⟨ts1, happ⟩ := append_ok (State.invoke ("Map" ++ f.f) ts.args f.f
          (match ts.DeadLetterQueue with
           | some q => [Catch.mk [State.sqsSend ("Try" ++ f.f) q "$",
                          State.failS ("Err" ++ f.f)] "$.error"]
           | none => [])) hne hns
      obtain ⟨hs, hn, hq, hb, hp, _⟩ := append_fields happ
      refine ⟨OnLeaveMap ts1, ?_, ?_, ?_, ?_, ?_, ?_⟩
      · unfold runAst OnEnterMap
        simp only [happ]
      · simpa [OnLeaveMap] using hs
      · simpa [OnLeaveMap] using hn
      · simpa [OnLeaveMap] using hb
      · simpa [OnLeaveMap] using hp
      · simpa [OnLeaveMap] using hq
  | seq c cs hc hcs =>
      have hns0 : (OnEnterSeq ts).names.length = (OnEnterSeq ts).stack.length := by
        simp [OnEnterSeq, hns]
      have hpos0 : 1 ≤ (OnEnterSeq ts).stack.length := by
        simp [OnEnterSeq]
      obtain ⟨ts1, hr1, hs1, hn1, hb1, hp1, hq1⟩ := runAst_good c hc (OnEnterSeq ts) hns0 hpos0
      have hns1 : ts1.names.length = ts1.stack.length := by rw [hn1, hs1, hns0]
      have hpos1 : 1 ≤ ts1.stack.length := by rw [hs1]; exact hpos0
      obtain ⟨ts2, hr2, hs2, hn2, hb2, hp2, hq2⟩ := runList_good cs hcs ts1 hns1 hpos1
      have hns2 : ts2.names.length = ts2.stack.length := by rw [hn2, hs2, hns1]
      have hpos2 : 2 ≤ ts2.stack.length := by
        rw [hs2, hs1]
        simp [OnEnterSeq]
        omega
      obtain ⟨ts3, hr3⟩ := OnLeaveSeq_ok (c :: cs) hpos2 hns2 (by simp)
      obtain ⟨hs3, hn3, hq3, hb3, hp3, _, _⟩ := OnLeaveSeq_fields hns2 hr3
      refine ⟨ts3, ?_, ?_, ?_, ?_, ?_, ?_⟩
      · unfold runAst
        rw [show runList (OnEnterSeq ts) (c :: cs) = .ok ts2 by
              unfold runList
              rw [hr1]
              exact hr2]
        exact hr3
      · rw [hs3, hs2, hs1]
        simp [OnEnterSeq]
      · rw [hn3, hn2, hn1]
        simp [OnEnterSeq]
      · rw [hb3, hb2, hb1]
        simp [OnEnterSeq]
      · rw [hp3, hp2, hp1]
        simp [OnEnterSeq]
      · rw [hq3, hq2, hq1]
        simp [OnEnterSeq]

/-- Walking a list of acceptable inner nodes always succeeds and preserves
the level structure, the captured bus/pattern and the dead-letter queue. -/
theorem runList_good (l : List Ast) (h : GoodList l) : ∀ (ts : typeStep),
    ts.names.length = ts.stack.length → 1 ≤ ts.stack.length →
    ∃ ts', runList ts l = .ok ts' ∧
      ts'.stack.length = ts.stack.length ∧ ts'.names.length = ts.names.length ∧
      ts'.bus = ts.bus ∧ ts'.eventPattern = ts.eventPattern ∧
      ts'.DeadLetterQueue = ts.DeadLetterQueue := by
  intro ts hns hpos
  cases h with
  | nil => exact ⟨ts, rfl, rfl, rfl, rfl, rfl, rfl⟩
  | cons a rest ha hrest =>
      obtain ⟨ts1, hr1, hs1, hn1, hb1, hp1, hq1⟩ := runAst_good a ha ts hns hpos
      have hns1 : ts1.names.length = ts1.stack.length := by rw [hn1, hs1, hns]
      have hpos1 : 1 ≤ ts1.stack.length := by rw [hs1]; exact hpos
      obtain ⟨ts2, hr2, hs2, hn2, hb2, hp2, hq2⟩ := runList_good rest hrest ts1 hns1 hpos1
      refine ⟨ts2, ?_, ?_, ?_, ?_, ?_, ?_⟩
      · unfold runList
        rw [hr1]
        exact hr2
      · rw [hs2, hs1]
      · rw [hn2, hn1]
      · rw [hb2, hb1]
      · rw [hp2, hp1]
      · rw [hq2, hq1]
end

/-- Unfolding `runList` on an empty level. -/
theorem runList_nil (ts : typeStep) : runList ts [] = .ok ts := rfl

/-- One step of `runList`. -/
theorem runList_cons (ts : typeStep) (a : Ast) (rest : List Ast) :
    runList ts (a :: rest) = match runAst ts a with
      | .ok ts1 => runList ts1 rest
      | r => r := rfl

/-- Splitting lemma: `runList` processes a concatenation sequentially. -/
theorem runList_append (ts : typeStep) (l1 l2 : List Ast) :
    runList ts (l1 ++ l2) = match runList ts l1 with
      | .ok ts1 => runList ts1 l2
      | r => r := by
  induction l1 generalizing ts with
  | nil => simp [runList]
  | cons a rest ih =>
      rw [List.cons_append, runList_cons, runList_cons]
      cases hr : runAst ts a with
      | ok ts1 => exact ih ts1
      | err e => rfl
      | crash e => rfl

/-- Success of `OnEnterFrom` on a `source` payload, capturing the bus
and the pattern. -/
theorem OnEnterFrom_src_ok (ts : typeStep) (f : source) (ty : String) :
    OnEnterFrom ts (.src f) ty =
      .ok { ts with bus := some f.bus,
                    eventPattern := some (if f.cat.length ≠ 0 then f.cat else [ty]),
                    args := "$.detail" } := rfl

/-- Success of `OnLeaveMorphism` on a single open level with a captured bus,
emitting the machine from that chain and the rule from the captured
bus and pattern. -/
theorem OnLeaveMorphism_ok {ts : typeStep} {b : String}
    (h1 : ts.stack.length = 1) (h2 : ts.bus = some b) :
    OnLeaveMorphism ts = .ok ⟨ts.stack.headD [], b, ts.eventPattern⟩ := by
  unfold OnLeaveMorphism
  rw [if_neg (by omega), h2]

/-- Compiling any well-formed pipeline succeeds with one artifact. -/
theorem compile_wf (dlq : Option String) (m : List Ast) (h : wellFormed m) :
    ∃ a, compile dlq m = .ok a := by
  obtain ⟨s, ty, mid, tgt, ty2, rfl, hmid, htgt⟩ := h
  have hfrom : runAst (NewTypeStep dlq) (Ast.fromN (.src s) ty) =
      .ok ⟨dlq, some s.bus, some (if s.cat.length ≠ 0 then s.cat else [ty]),
           "$.detail", [[]], [""]⟩ := rfl
  generalize hpat : (if s.cat.length ≠ 0 then s.cat else [ty]) = pat at hfrom
  have hns1 : (⟨dlq, some s.bus, some pat, "$.detail", [[]], [""]⟩ : typeStep).names.length =
      (⟨dlq, some s.bus, some pat, "$.detail", [[]], [""]⟩ : typeStep).stack.length := rfl
  have hpos1 : 1 ≤ (⟨dlq, some s.bus, some pat, "$.detail", [[]], [""]⟩ : typeStep).stack.length := by
    simp
  obtain ⟨ts2, hr2, hs2, hn2, hb2, hp2, hq2⟩ := runList_good mid hmid _ hns1 hpos1
  have hns2 : ts2.names.length = ts2.stack.length := by rw [hn2, hs2]; rfl
  have hlen2 : ts2.stack.length = 1 := by rw [hs2]; rfl
  have hne2 : ts2.stack ≠ [] := by
    intro hc
    have := congrArg List.length hc
    rw [hlen2] at this
    simp at this
  have hyield : ∃ ts3, runAst ts2 (Ast.yieldN tgt ty2) = .ok ts3 ∧
      ts3.stack.length = ts2.stack.length ∧ ts3.bus = ts2.bus ∧
      ts3.eventPattern = ts2.eventPattern := by
    rcases htgt with ⟨q, rfl⟩ | ⟨e, rfl⟩
    · obtain ⟨ts3, happ⟩ := append_ok (State.sqsSend "Sink" q ts2.args) hne2 hns2
      obtain ⟨hs3, _, _, hb3, hp3, _⟩ := append_fields happ
      refine ⟨OnLeaveYield ts3, ?_, ?_, ?_, ?_⟩
      · unfold runAst OnEnterYield
        simp only [happ]
      · simpa [OnLeaveYield] using hs3
      · simpa [OnLeaveYield] using hb3
      · simpa [OnLeaveYield] using hp3
    · obtain ⟨ts3, happ⟩ := append_ok (State.ebPut "Sink" e.bus ts2.args
          (match e.cat with | [] => ty2 | c :: _ => c) e.src) hne2 hns2
      obtain ⟨hs3, _, _, hb3, hp3, _⟩ := append_fields happ
      refine ⟨OnLeaveYield ts3, ?_, ?_, ?_, ?_⟩
      · unfold runAst OnEnterYield
        simp only [happ]
      · simpa [OnLeaveYield] using hs3
      · simpa [OnLeaveYield] using hb3
      · simpa [OnLeaveYield] using hp3
  obtain ⟨ts3, hr3, hs3, hb3, hp3⟩ := hyield
  have hlen3 : ts3.stack.length = 1 := by rw [hs3, hlen2]
  have hbus3 : ts3.bus = some s.bus := by rw [hb3, hb2]
  refine ⟨⟨ts3.stack.headD [], s.bus, ts3.eventPattern⟩, ?_⟩
  unfold compile OnEnterMorphism
  dsimp only
  have hrun : runList (NewTypeStep dlq)
      (Ast.fromN (.src s) ty :: (mid ++ [Ast.yieldN tgt ty2])) = .ok ts3 := by
    rw [runList_cons, hfrom]
    dsimp only
    rw [runList_append, hr2]
    dsimp only
    rw [runList_cons, hr3]
    dsimp only
    exact runList_nil ts3
  rw [hrun]
  dsimp only
  rw [OnLeaveMorphism_ok hlen3 hbus3]

/-- Evaluating `OnLeaveSeq` on the concrete state. -/
theorem exOut_eq : OnLeaveSeq exTS exNode = .ok exOut :=
  OnLeaveSeq_concat none none none "$.Payload" [] [] [] [] "" ""
    (Ast.mapN (.lam (Join "A"))) [] rfl

/-! ### Claim theorems -/

/-- C7: default category filtering — when the `From` node carries no
explicit categories, the trigger rule pattern filters on exactly the
declared payload type name `[ty]`; when one or more categories are given,
the pattern is exactly that category list, independent of the type name. -/
theorem C7_category_filter :
    (∀ (ts : typeStep) (b ty : String),
      OnEnterFrom ts (.src ⟨[], b⟩) ty =
        .ok { ts with bus := some b, eventPattern := some [ty], args := "$.detail" }) ∧
    (∀ (ts : typeStep) (b ty c : String) (cs : List String),
      OnEnterFrom ts (.src ⟨c :: cs, b⟩) ty =
        .ok { ts with bus := some b, eventPattern := some (c :: cs), args := "$.detail" }) := by
  constructor
  · intro ts b ty
    rfl
  · intro ts b ty c cs
    unfold OnEnterFrom
    simp

/-- C8: unrecognized payload abort — a `Map` whose binding is not a
`lambda`, a `From` whose source is not the internal `source` type and a
`Yield` whose target is neither a queue nor an event bus each make the
corresponding `OnEnter` callback return a descriptive error naming the
offending payload type, without appending any state (the error result
carries no state); the traversal propagates the error, and a compilation
hitting such a node aborts with the error and no artifact. -/
theorem C8_unknown_payload :
    (∀ (ts : typeStep) (t : String),
      OnEnterMap ts (.other t) = .err ("unkown compute type: " ++ t)) ∧
    (∀ (ts : typeStep) (t ty : String),
      OnEnterFrom ts (.other t) ty = .err ("unkown input type: " ++ t)) ∧
    (∀ (ts : typeStep) (t ty : String),
      OnEnterYield ts (.other t) ty = .err ("unkown reply type: " ++ t)) ∧
    (∀ (ts : typeStep) (t : String),
      runAst ts (.mapN (.other t)) = .err ("unkown compute type: " ++ t)) ∧
    (∀ (ts : typeStep) (t ty : String),
      runAst ts (.fromN (.other t) ty) = .err ("unkown input type: " ++ t)) ∧
    (∀ (ts : typeStep) (t ty : String),
      runAst ts (.yieldN (.other t) ty) = .err ("unkown reply type: " ++ t)) ∧
    (∀ (dlq : Option String) (t ty : String) (rest : List Ast),
      compile dlq (.fromN (.other t) ty :: rest) = .err ("unkown input type: " ++ t)) := by
  refine ⟨fun ts t => rfl, fun ts t ty => rfl, fun ts t ty => rfl,
          fun ts t => rfl, fun ts t ty => rfl, fun ts t ty => rfl,
          fun dlq t ty rest => rfl⟩

/-- C5: `OnLeaveMorphism` failure modes — with more or fewer than one open
chain level it returns the malformed-pipeline error
`bad definition of compute pipeline`; with one level but no captured event
source it returns `undefined event source for compute pipeline`; in either
case the `Except.error` result carries no state machine and no rule. -/
theorem C5_morphism_errors :
    (∀ ts : typeStep, ts.stack.length ≠ 1 →
      OnLeaveMorphism ts = .error "bad definition of compute pipeline") ∧
    (∀ ts : typeStep, ts.stack.length = 1 → ts.bus = none →
      OnLeaveMorphism ts = .error "undefined event source for compute pipeline") := by
  constructor
  · intro ts h
    unfold OnLeaveMorphism
    rw [if_pos h]
  · intro ts h1 h2
    unfold OnLeaveMorphism
    rw [if_neg (by omega), h2]

/-- C5 witness: a state with zero open levels hits the malformed-pipeline
error; a fresh compiler state (one level, no captured source) hits the
undefined-event-source error. -/
theorem C5_morphism_errors_witness :
    OnLeaveMorphism ⟨none, none, none, "", [], []⟩ =
      .error "bad definition of compute pipeline" ∧
    OnLeaveMorphism (NewTypeStep none) =
      .error "undefined event source for compute pipeline" :=
  ⟨C5_morphism_errors.1 ⟨none, none, none, "", [], []⟩ (by simp),
   C5_morphism_errors.2 (NewTypeStep none) rfl rfl⟩

/-- C1 counterexample: the original claim — after `OnLeaveSeq` the input
path equals the invocation-result-field sentinel `$.Payload` — is false:
`OnLeaveSeq` on the concrete state `exTS` succeeds and leaves
`args = "$"`. -/
theorem C1_counterexample :
    ¬ (∀ (ts : typeStep) (node : List Ast) (ts' : typeStep),
        OnLeaveSeq ts node = .ok ts' → ts'.args = "$.Payload") := by
  intro h
  have := h exTS exNode exOut exOut_eq
  simp [exOut] at this

/-- C1 (amended): path threading — immediately after `OnEnterFrom` the
input path is the event-payload-root sentinel `$.detail`; after every
`OnLeaveMap` it is the invocation-result-field sentinel `$.Payload`; and
immediately after a successful `OnLeaveSeq` it is the root path `$` (the
same sentinel `OnEnterSeq` resets to), not the result-field sentinel the
original claim states. -/
theorem C1_path_threading :
    (∀ (ts : typeStep) (f : source) (ty : String) (ts' : typeStep),
      OnEnterFrom ts (.src f) ty = .ok ts' → ts'.args = "$.detail") ∧
    (∀ ts : typeStep, (OnLeaveMap ts).args = "$.Payload") ∧
    (∀ (ts : typeStep) (node : List Ast) (ts' : typeStep),
      OnLeaveSeq ts node = .ok ts' → ts'.args = "$") := by
  refine ⟨?_, fun ts => rfl, ?_⟩
  · intro ts f ty ts' h
    rw [OnEnterFrom_src_ok] at h
    simp only [Outcome.ok.injEq] at h
    rw [← h]
  · intro ts node ts' h
    obtain ⟨sub, name, first, ts2, h1, h2, h3, h4, rfl⟩ := OnLeaveSeq_ok_inv h
    rfl

/-- C1 witness: the three amended path facts at concrete inputs. -/
theorem C1_path_threading_witness :
    (⟨none, some "B", some ["A"], "$.detail", [[]], [""]⟩ : typeStep).args = "$.detail" ∧
    (OnLeaveMap (NewTypeStep none)).args = "$.Payload" ∧ exOut.args = "$" :=
  ⟨C1_path_threading.1 (NewTypeStep none) ⟨[], "B"⟩ "A"
      ⟨none, some "B", some ["A"], "$.detail", [[]], [""]⟩ rfl,
   C1_path_threading.2.1 (NewTypeStep none),
   C1_path_threading.2.2 exTS exNode exOut exOut_eq⟩

/-- C2: concurrency propagation — `OnLeaveSeq` on a fan-out whose first
node is the `Map` of a `LiftP`-built binding with bound `n` emits a
`ForEach` state with `MaxConcurrency = n`; with an unparametrized
`Lift`-built or `Join`-built binding (recorded concurrency 1) it emits
`MaxConcurrency = 1`. -/
theorem C2_concurrency_propagation :
    (∀ (dlq bus : Option String) (pat : Option (List String)) (args : String)
       (front : List (List State)) (outer sub : List State)
       (nfront : List String) (onm nm : String) (n : Int) (fid : String) (rest : List Ast),
      nfront.length = front.length →
      OnLeaveSeq ⟨dlq, bus, pat, args, front ++ [outer, sub], nfront ++ [onm, nm]⟩
          (Ast.mapN (.lam (LiftP n fid)) :: rest) =
        .ok ⟨dlq, bus, pat, "$",
          front ++ [outer ++ [State.foreachS ("Seq" ++ (sha256Hex nm).take 8) "$.Payload" n sub]],
          nfront ++ [onm ++ ("Seq" ++ (sha256Hex nm).take 8)]⟩) ∧
    (∀ (dlq bus : Option String) (pat : Option (List String)) (args : String)
       (front : List (List State)) (outer sub : List State)
       (nfront : List String) (onm nm : String) (fid : String) (rest : List Ast),
      nfront.length = front.length →
      OnLeaveSeq ⟨dlq, bus, pat, args, front ++ [outer, sub], nfront ++ [onm, nm]⟩
          (Ast.mapN (.lam (Lift fid)) :: rest) =
        .ok ⟨dlq, bus, pat, "$",
          front ++ [outer ++ [State.foreachS ("Seq" ++ (sha256Hex nm).take 8) "$.Payload" 1 sub]],
          nfront ++ [onm ++ ("Seq" ++ (sha256Hex nm).take 8)]⟩) ∧
    (∀ (dlq bus : Option String) (pat : Option (List String)) (args : String)
       (front : List (List State)) (outer sub : List State)
       (nfront : List String) (onm nm : String) (fid : String) (rest : List Ast),
      nfront.length = front.length →
      OnLeaveSeq ⟨dlq, bus, pat, args, front ++ [outer, sub], nfront ++ [onm, nm]⟩
          (Ast.mapN (.lam (Join fid)) :: rest) =
        .ok ⟨dlq, bus, pat, "$",
          front ++ [outer ++ [State.foreachS ("Seq" ++ (sha256Hex nm).take 8) "$.Payload" 1 sub]],
          nfront ++ [onm ++ ("Seq" ++ (sha256Hex nm).take 8)]⟩) := by
  refine ⟨?_, ?_, ?_⟩
  · intro dlq bus pat args front outer sub nfront onm nm n fid rest h
    simpa [seqConcurrency, LiftP, stateId] using
      OnLeaveSeq_concat dlq bus pat args front outer sub nfront onm nm
        (Ast.mapN (.lam (LiftP n fid))) rest h
  · intro dlq bus pat args front outer sub nfront onm nm fid rest h
    simpa [seqConcurrency, Lift, stateId] using
      OnLeaveSeq_concat dlq bus pat args front outer sub nfront onm nm
        (Ast.mapN (.lam (Lift fid))) rest h
  · intro dlq bus pat args front outer sub nfront onm nm fid rest h
    simpa [seqConcurrency, Join, stateId] using
      OnLeaveSeq_concat dlq bus pat args front outer sub nfront onm nm
        (Ast.mapN (.lam (Join fid))) rest h

/-- C2 witness: `LiftP 7` yields a `ForEach` with concurrency 7 and
`Join` yields concurrency 1 on a concrete compiler state. -/
theorem C2_concurrency_propagation_witness :
    OnLeaveSeq ⟨none, none, none, "$", [[], []], ["", "x"]⟩
        [Ast.mapN (.lam (LiftP 7 "F"))] =
      .ok ⟨none, none, none, "$",
        [] ++ [[] ++ [State.foreachS ("Seq" ++ (sha256Hex "x").take 8) "$.Payload" 7 []]],
        [] ++ ["" ++ ("Seq" ++ (sha256Hex "x").take 8)]⟩ ∧
    OnLeaveSeq ⟨none, none, none, "$", [[], []], ["", "x"]⟩
        [Ast.mapN (.lam (Join "F"))] =
      .ok ⟨none, none, none, "$",
        [] ++ [[] ++ [State.foreachS ("Seq" ++ (sha256Hex "x").take 8) "$.Payload" 1 []]],
        [] ++ ["" ++ ("Seq" ++ (sha256Hex "x").take 8)]⟩ :=
  ⟨C2_concurrency_propagation.1 none none none "$" [] [] [] [] "" "x" 7 "F" [] rfl,
   C2_concurrency_propagation.2.2 none none none "$" [] [] [] [] "" "x" "F" [] rfl⟩

/-- C9: concurrency-recovery fallback — for a `Seq` whose sub-chain is
non-empty, `OnLeaveSeq` never panics even when the first child is not a
`lambda`-backed `Map` (e.g. a nested `Seq`): the type checks fail
gracefully and the emitted `ForEach` silently gets concurrency 1; only an
empty sub-chain (`node.Seq[0]` on an empty list) crashes. -/
theorem C9_concurrency_fallback :
    (∀ (dlq bus : Option String) (pat : Option (List String)) (args : String)
       (front : List (List State)) (outer sub : List State)
       (nfront : List String) (onm nm : String) (first : Ast) (rest : List Ast),
      nfront.length = front.length →
      (∀ f : lambda, first ≠ Ast.mapN (.lam f)) →
      OnLeaveSeq ⟨dlq, bus, pat, args, front ++ [outer, sub], nfront ++ [onm, nm]⟩
          (first :: rest) =
        .ok ⟨dlq, bus, pat, "$",
          front ++ [outer ++ [State.foreachS ("Seq" ++ (sha256Hex nm).take 8) "$.Payload" 1 sub]],
          nfront ++ [onm ++ ("Seq" ++ (sha256Hex nm).take 8)]⟩) ∧
    (∀ ts : typeStep, OnLeaveSeq ts [] = .crash "index out of range") := by
  constructor
  · intro dlq bus pat args front outer sub nfront onm nm first rest h hfl
    have hsc : seqConcurrency first = 1 := by
      cases first with
      | mapN F =>
          cases F with
          | lam g => exact absurd rfl (hfl g)
          | other t => rfl
      | fromN s ty => rfl
      | seqN l => rfl
      | yieldN t ty => rfl
    have := OnLeaveSeq_concat dlq bus pat args front outer sub nfront onm nm first rest h
    rw [hsc] at this
    simpa [stateId] using this
  · intro ts
    unfold OnLeaveSeq
    cases h1 : ts.stack[ts.stack.length - 1]? with
    | none => simp [h1]
    | some sub =>
        cases h2 : ts.names[ts.stack.length - 1]? with
        | none => simp [h1, h2]
        | some name => simp [h1, h2]

/-- C9 witness: a `Seq` whose first child is a nested (empty) `Seq`
compiles to a `ForEach` with concurrency 1, and `OnLeaveSeq` on an empty
`Seq` node crashes. -/
theorem C9_concurrency_fallback_witness :
    OnLeaveSeq ⟨none, none, none, "$", [[], []], ["", "x"]⟩ [Ast.seqN []] =
      .ok ⟨none, none, none, "$",
        [] ++ [[] ++ [State.foreachS ("Seq" ++ (sha256Hex "x").take 8) "$.Payload" 1 []]],
        [] ++ ["" ++ ("Seq" ++ (sha256Hex "x").take 8)]⟩ ∧
    OnLeaveSeq exTS [] = .crash "index out of range" :=
  ⟨C9_concurrency_fallback.1 none none none "$" [] [] [] [] "" "x" (Ast.seqN []) [] rfl
      (fun _ h => Ast.noConfusion h),
   C9_concurrency_fallback.2 exTS⟩

/-- C6: fan-out naming determinism — whenever `OnLeaveSeq` succeeds, the
emitted `ForEach` state is named `"Seq"` followed by the first 8 hex
characters of the SHA-256 digest of the accumulated identifiers of the
popped nesting level, a pure function of that accumulated name, so two
compilations accumulating the same identifiers derive identical names. -/
theorem C6_fanout_naming (ts : typeStep) (node : List Ast) (ts' : typeStep) (nm : String)
    (h : OnLeaveSeq ts node = .ok ts')
    (hnm : ts.names[ts.stack.length - 1]? = some nm) :
    ∃ conc sub, emitted ts' =
      some (State.foreachS ("Seq" ++ (sha256Hex nm).take 8) "$.Payload" conc sub) := by
  obtain ⟨sub, name, first, ts2, h1, h2, h3, h4, rfl⟩ := OnLeaveSeq_ok_inv h
  rw [h2] at hnm
  simp only [Option.some.injEq] at hnm
  subst hnm
  have he := append_emitted h4
  exact ⟨seqConcurrency first, sub, he⟩

/-- C6 witness: the derived name at a concrete compiler state. -/
theorem C6_fanout_naming_witness :
    ∃ conc sub, emitted exOut =
      some (State.foreachS ("Seq" ++ (sha256Hex "").take 8) "$.Payload" conc sub) :=
  C6_fanout_naming exTS exNode exOut "" exOut_eq rfl

/-- C3: dead-letter wiring — with a configured dead-letter queue `q`,
every `Invoke` state created by `OnEnterMap` carries exactly one catch
branch whose handler is the send-to-`q` state `Try<uuid>` chained to the
terminal `Fail` state `Err<uuid>`, with the error recorded at `$.error`;
with no dead-letter queue the created `Invoke` carries no catch branch and
no state anywhere in a compiled artifact has any catch branch. -/
theorem C3_dead_letter_wiring :
    (∀ (bus : Option String) (pat : Option (List String)) (args q : String)
       (front : List (List State)) (lastc : List State)
       (nfront : List String) (nlast : String) (f : lambda),
      nfront.length = front.length →
      OnEnterMap ⟨some q, bus, pat, args, front ++ [lastc], nfront ++ [nlast]⟩ (.lam f) =
        .ok ⟨some q, bus, pat, args,
          front ++ [lastc ++ [State.invoke ("Map" ++ f.f) args f.f
            [Catch.mk [State.sqsSend ("Try" ++ f.f) q "$", State.failS ("Err" ++ f.f)]
              "$.error"]]],
          nfront ++ [nlast ++ ("Map" ++ f.f)]⟩) ∧
    (∀ (bus : Option String) (pat : Option (List String)) (args : String)
       (front : List (List State)) (lastc : List State)
       (nfront : List String) (nlast : String) (f : lambda),
      nfront.length = front.length →
      OnEnterMap ⟨none, bus, pat, args, front ++ [lastc], nfront ++ [nlast]⟩ (.lam f) =
        .ok ⟨none, bus, pat, args,
          front ++ [lastc ++ [State.invoke ("Map" ++ f.f) args f.f []]],
          nfront ++ [nlast ++ ("Map" ++ f.f)]⟩) ∧
    (∀ (m : List Ast) (a : Artifact),
      compile none m = .ok a → listCF a.DefinitionBody = true) := by
  refine ⟨?_, ?_, fun m a => compile_none_CF⟩
  · intro bus pat args q front lastc nfront nlast f h
    have happ := append_concat (some q) bus pat args front lastc nfront nlast
      (State.invoke ("Map" ++ f.f) args f.f
        [Catch.mk [State.sqsSend ("Try" ++ f.f) q "$", State.failS ("Err" ++ f.f)]
          "$.error"]) h
    unfold OnEnterMap
    dsimp only
    rw [happ]
    simp [stateId]
  · intro bus pat args front lastc nfront nlast f h
    have happ := append_concat none bus pat args front lastc nfront nlast
      (State.invoke ("Map" ++ f.f) args f.f []) h
    unfold OnEnterMap
    dsimp only
    rw [happ]
    simp [stateId]

/-- C3 witness: the catch branch of a concrete `OnEnterMap`, and the
catch-freedom of the artifact compiled from `exPipe` without a
dead-letter queue. -/
theorem C3_dead_letter_wiring_witness :
    (OnEnterMap ⟨some "dlq", none, none, "$", [[]], [""]⟩ (.lam (Join "A")) =
      .ok ⟨some "dlq", none, none, "$",
        [] ++ [[] ++ [State.invoke ("Map" ++ "A") "$" "A"
          [Catch.mk [State.sqsSend ("Try" ++ "A") "dlq" "$", State.failS ("Err" ++ "A")]
            "$.error"]]],
        [] ++ ["" ++ ("Map" ++ "A")]⟩) ∧
    listCF [State.invoke ("Map" ++ "F") "$.detail" "F" [],
            State.sqsSend "Sink" "q" "$.Payload"] = true :=
  ⟨C3_dead_letter_wiring.1 none none "$" "dlq" [] [] [] "" (Join "A") rfl,
   C3_dead_letter_wiring.2.2 exPipe
     ⟨[State.invoke ("Map" ++ "F") "$.detail" "F" [],
       State.sqsSend "Sink" "q" "$.Payload"], "bus", some ["A"]⟩ rfl⟩

/-- C4: structural completeness — compiling any well-formed pipeline
(one `From` root with a `source` payload, acceptable inner nodes, one
terminal queue/event-bus `Yield`) succeeds, ending with exactly one open
chain level and emitting exactly one artifact, which carries one state
machine definition and one trigger rule targeting it. -/
theorem C4_structural_completeness (dlq : Option String) (m : List Ast)
    (h : wellFormed m) : ∃ a, compile dlq m = .ok a :=
  compile_wf dlq m h

/-- C4 witness: a concrete four-node pipeline with a fan-out is
well-formed and compiles successfully. -/
theorem C4_structural_completeness_witness :
    wellFormed exGoodM ∧ ∃ a, compile (some "dlq") exGoodM = .ok a := by
  have hwf : wellFormed exGoodM :=
    ⟨⟨[], "bus"⟩, "A",
     [Ast.mapN (.lam (Join "F")), Ast.seqN [Ast.mapN (.lam (LiftP 3 "G"))]],
     .queue "q", "V", rfl,
     .cons _ _ (.map (Join "F"))
       (.cons _ _ (.seq _ _ (.map (LiftP 3 "G")) .nil) .nil),
     Or.inl ⟨"q", rfl⟩⟩
  exact ⟨hwf, C4_structural_completeness (some "dlq") exGoodM hwf⟩

/-- Overwriting the last element leaves the prefix before it untouched. -/
theorem dropLast_set_last {α : Type} (l : List α) (v : α) :
    (l.set (l.length - 1) v).dropLast = l.dropLast := by
  induction l with
  | nil => rfl
  | cons x xs ih =>
      cases xs with
      | nil => rfl
      | cons y ys =>
          have hlen : (x :: y :: ys).length - 1 = ((y :: ys).length - 1) + 1 := by simp
          rw [hlen, List.set_cons_succ]
          cases hset : (y :: ys).set ((y :: ys).length - 1) v with
          | nil =>
              have := congrArg List.length hset
              simp at this
          | cons z zs =>
              have h1 : (x :: z :: zs).dropLast = x :: (z :: zs).dropLast := rfl
              have h2 : (x :: y :: ys).dropLast = x :: (y :: ys).dropLast := rfl
              rw [h1, h2, ← hset, ih]

/-- C10: stack/names parallelism — `NewTypeStep` starts both `stack` and
`names` at length 1; `OnEnterSeq` pushes one element onto each;
`typeStep.append` preserves both lengths and (when the lengths agree)
mutates only the last element of each; a successful `OnLeaveSeq` pops
exactly one element from each, leaving at least one level; and walking any
node preserves `len(stack) = len(names)` and the stack height, so every
reachable state of a traversal keeps the two sequences parallel and
non-empty and every `append` targets a valid innermost level. -/
theorem C10_stack_names_parallel :
    (∀ dlq : Option String,
      (NewTypeStep dlq).stack.length = 1 ∧ (NewTypeStep dlq).names.length = 1) ∧
    (∀ ts : typeStep,
      (OnEnterSeq ts).stack.length = ts.stack.length + 1 ∧
      (OnEnterSeq ts).names.length = ts.names.length + 1) ∧
    (∀ (ts : typeStep) (f : State) (ts' : typeStep), ts.append f = some ts' →
      ts'.stack.length = ts.stack.length ∧ ts'.names.length = ts.names.length ∧
      (ts.names.length = ts.stack.length →
        ts'.stack.dropLast = ts.stack.dropLast ∧ ts'.names.dropLast = ts.names.dropLast)) ∧
    (∀ (ts : typeStep) (node : List Ast) (ts' : typeStep),
      ts.names.length = ts.stack.length → OnLeaveSeq ts node = .ok ts' →
      ts'.stack.length = ts.stack.length - 1 ∧ ts'.names.length = ts.names.length - 1 ∧
      1 ≤ ts'.stack.length) ∧
    (∀ (a : Ast) (ts ts' : typeStep),
      ts.names.length = ts.stack.length → runAst ts a = .ok ts' →
      ts'.names.length = ts'.stack.length ∧ ts'.stack.length = ts.stack.length) := by
  refine ⟨fun dlq => ⟨rfl, rfl⟩, fun ts => ⟨by simp [OnEnterSeq], by simp [OnEnterSeq]⟩,
          ?_, ?_, ?_⟩
  · intro ts f ts' h
    obtain ⟨last, nm, h1, h2, rfl⟩ := append_ok_inv h
    refine ⟨by simp, by simp, ?_⟩
    intro hns
    constructor
    · exact dropLast_set_last ts.stack (last ++ [f])
    · show (ts.names.set (ts.stack.length - 1) (nm ++ stateId f)).dropLast = ts.names.dropLast
      rw [show ts.stack.length - 1 = ts.names.length - 1 by omega]
      exact dropLast_set_last ts.names (nm ++ stateId f)
  · intro ts node ts' hns h
    obtain ⟨hs, hn, _, _, _, _, hpos⟩ := OnLeaveSeq_fields hns h
    exact ⟨hs, hn, hpos⟩
  · intro a ts ts' hns h
    obtain ⟨hn, hs, _⟩ := runAst_preserves a ts ts' hns h
    exact ⟨by rw [hn, hs, hns], hs⟩

/-- C10 witness: the parallelism facts at concrete compiler states. -/
theorem C10_stack_names_parallel_witness :
    ((NewTypeStep none).stack.length = 1 ∧ (NewTypeStep none).names.length = 1) ∧
    ((⟨none, none, none, "", [[State.failS "E"]], ["E"]⟩ : typeStep).stack.length = 1 ∧
     (⟨none, none, none, "", [[State.failS "E"]], ["E"]⟩ : typeStep).names.length = 1 ∧
     ((NewTypeStep none).names.length = (NewTypeStep none).stack.length →
       (⟨none, none, none, "", [[State.failS "E"]], ["E"]⟩ : typeStep).stack.dropLast =
         (NewTypeStep none).stack.dropLast ∧
       (⟨none, none, none, "", [[State.failS "E"]], ["E"]⟩ : typeStep).names.dropLast =
         (NewTypeStep none).names.dropLast)) ∧
    (exOut.stack.length = exTS.stack.length - 1 ∧
     exOut.names.length = exTS.names.length - 1 ∧ 1 ≤ exOut.stack.length) := by
  refine ⟨C10_stack_names_parallel.1 none, ?_, ?_⟩
  · exact C10_stack_names_parallel.2.2.1 (NewTypeStep none) (State.failS "E")
      ⟨none, none, none, "", [[State.failS "E"]], ["E"]⟩ rfl
  · exact C10_stack_names_parallel.2.2.2.1 exTS exNode exOut rfl exOut_eq
